import Mathlib

/-!
Shallow embedding of `distance_calculator.py`: minimum spatial distance
between two voxel-mask point clouds of medical images.

The module has two parts:
* `convert_to_world_coordinates`: maps the positive voxels of a 3D image to
  physical world coordinates (`world = origin + direction @ (spacing * index)`,
  with the `(z,y,x)` array index reversed to `(x,y,z)` before the transform);
* class `Distances`: loads two images, builds a k-d tree over the second
  cloud, queries the nearest-neighbour distance of every point of the first
  cloud, and exposes the cached minimum of those distances.

Numeric values (voxel intensities, origin, spacing, direction entries and
world coordinates) are modelled by exact rationals; Euclidean distances are
handled through their squares, with `Real.sqrt` applied in theorem statements
where a claim speaks about the Euclidean value itself.  The k-d tree of the
`scipy.spatial` collaborator is modelled by its interface contract: one exact
nearest-neighbour distance per query point.
-/

/-- A 3-vector of (exact) coordinates. -/
structure Vec3 where
  x : ℚ
  y : ℚ
  z : ℚ
deriving DecidableEq, Repr

instance : Add Vec3 := ⟨fun a b => ⟨a.x + b.x, a.y + b.y, a.z + b.z⟩⟩

theorem Vec3.add_def (a b : Vec3) : a + b = ⟨a.x + b.x, a.y + b.y, a.z + b.z⟩ := rfl

/-- Elementwise (Hadamard) product of two 3-vectors (`spacing * index` in numpy). -/
def hadamard (a b : Vec3) : Vec3 := ⟨a.x * b.x, a.y * b.y, a.z * b.z⟩

/-- A 3x3 matrix, stored by rows as `np.array(img.GetDirection()).reshape(3, 3)` does. -/
structure Mat3 where
  m00 : ℚ
  m01 : ℚ
  m02 : ℚ
  m10 : ℚ
  m11 : ℚ
  m12 : ℚ
  m20 : ℚ
  m21 : ℚ
  m22 : ℚ
deriving DecidableEq, Repr

/-- Matrix-vector product `direction @ v`. -/
def matVec (d : Mat3) (v : Vec3) : Vec3 :=
  ⟨d.m00 * v.x + d.m01 * v.y + d.m02 * v.z,
   d.m10 * v.x + d.m11 * v.y + d.m12 * v.z,
   d.m20 * v.x + d.m21 * v.y + d.m22 * v.z⟩

/-- The identity direction matrix. -/
def idMat : Mat3 := ⟨1, 0, 0, 0, 1, 0, 0, 0, 1⟩

/-- Squared Euclidean (L2) distance between two world points. -/
def sqDist (a b : Vec3) : ℚ :=
  (a.x - b.x) ^ 2 + (a.y - b.y) ^ 2 + (a.z - b.z) ^ 2

/-- A SimpleITK image as consumed by the module: geometric metadata plus the
voxel array.  `sitk.GetArrayFromImage` yields the voxels in native `(z,y,x)`
storage order, so `mask z y x` is the value at array position `(z,y,x)` and
the array shape is `dimZ × dimY × dimX`. -/
structure Image where
  dimZ : ℕ
  dimY : ℕ
  dimX : ℕ
  mask : ℕ → ℕ → ℕ → ℚ
  origin : Vec3
  spacing : Vec3
  direction : Mat3

/-- `np.argwhere(mask > 0)`: the `(z,y,x)` array positions of the positive
voxels, in C-order (row-major, i.e. lexicographic) traversal order. -/
def voxelIndicesZYX (img : Image) : List (ℕ × ℕ × ℕ) :=
  (List.range img.dimZ).flatMap fun z =>
    (List.range img.dimY).flatMap fun y =>
      ((List.range img.dimX).filter fun x => decide (0 < img.mask z y x)).map
        fun x => (z, y, x)

/-- `[:, ::-1]`: reverse a `(z,y,x)` row into an `(x,y,z)` index vector. -/
def reverseIdx (t : ℕ × ℕ × ℕ) : Vec3 := ⟨(t.2.2 : ℚ), (t.2.1 : ℚ), (t.1 : ℚ)⟩

/-- `convert_to_world_coordinates(img)`: the positive-voxel indices, each
reversed to `(x,y,z)` order, scaled elementwise by the spacing, multiplied by
the direction matrix and offset by the origin — mirroring the numpy pipeline
`voxel_indices = np.argwhere(mask > 0)[:, ::-1]`,
`scaled_indices = voxel_indices * spacing`,
`world_points = origin + (direction @ scaled_indices.T).T`. -/
def convert_to_world_coordinates (img : Image) : List Vec3 :=
  let voxel_indices := (voxelIndicesZYX img).map reverseIdx
  let scaled_indices := voxel_indices.map fun v => hadamard v img.spacing
  scaled_indices.map fun v => img.origin + matVec img.direction v

/-- The number of positive voxels of the mask. -/
def countPositiveVoxels (img : Image) : ℕ :=
  ((List.range img.dimZ).map fun z =>
    ((List.range img.dimY).map fun y =>
      (List.range img.dimX).countP fun x => decide (0 < img.mask z y x)).sum).sum

/-- The mask has at least one positive voxel. -/
def HasPositiveVoxel (img : Image) : Prop :=
  ∃ z y x, z < img.dimZ ∧ y < img.dimY ∧ x < img.dimX ∧ 0 < img.mask z y x

/-- Modelled from the spec: the World Point of §3,
`world = origin + direction · (spacing ⊙ index)` for an `(x,y,z)`-ordered
index triple `(i, j, k)` (written here from the spec's words, to be compared
with the implementation pipeline). -/
def specWorldPoint (origin : Vec3) (direction : Mat3) (spacing : Vec3)
    (i j k : ℕ) : Vec3 :=
  origin + matVec direction (hadamard spacing ⟨(i : ℚ), (j : ℚ), (k : ℚ)⟩)

/-- Minimum of a list of rationals, `none` on the empty list (where numpy's
`.min()` raises `ValueError`). -/
def listMinQ : List ℚ → Option ℚ
  | [] => none
  | a :: l =>
    match listMinQ l with
    | none => some a
    | some m => some (min a m)

/-- Merge of two optional minima (the minimum of a concatenation). -/
def optMin2 : Option ℚ → Option ℚ → Option ℚ
  | none, o => o
  | some a, none => some a
  | some a, some b => some (min a b)

/-- Option-valued map over a list: `none` as soon as one element fails
(an exception propagating out of a vectorised call). -/
def mapOpt {α β : Type} (f : α → Option β) : List α → Option (List β)
  | [] => some []
  | a :: l =>
    match f a, mapOpt f l with
    | some b, some bs => some (b :: bs)
    | _, _ => none

/-- Modelled from the spec: the Spatial Index collaborator of §6
(`scipy.spatial.cKDTree` is external to the repository).  `build(points)`
followed by `query` "returns one nearest-neighbor distance per query point";
on an empty reference set the behaviour is left unspecified by §7, modelled
as `none`.  Distances are carried as their squares. -/
def kdQuerySq (points : List Vec3) (p : Vec3) : Option ℚ :=
  listMinQ (points.map (sqDist p))

/-- All pairwise squared distances between two clouds — the brute-force
`O(n*m)` comparison set. -/
def pairwiseSqDists : List Vec3 → List Vec3 → List ℚ
  | [], _ => []
  | a :: l, B => B.map (sqDist a) ++ pairwiseSqDists l B

namespace Distances

/-- `Distances._compute_distances`: convert both images to world-coordinate
clouds, build the tree over the second cloud, and query one
nearest-neighbour (squared) distance per point of the first cloud. -/
def compute_distances (img_1 img_2 : Image) : Option (List ℚ) :=
  let points_1 := convert_to_world_coordinates img_1
  let points_2 := convert_to_world_coordinates img_2
  mapOpt (kdQuerySq points_2) points_1

/-- The value of `Distances.minimum` (as a squared distance): the minimum of
the per-point nearest-neighbour distances, `none` where the Python code
raises. -/
def minimumSq (img_1 img_2 : Image) : Option ℚ :=
  (compute_distances img_1 img_2).bind listMinQ

/-- The observable state of a `Distances` instance: the two loaded images,
the `lru_cache(maxsize=1)` slot of `_compute_distances`, the
`cached_property` slot of `minimum`, and an instrumentation counter of how
many times the body of `_compute_distances` actually ran. -/
structure State where
  img_1 : Image
  img_2 : Image
  cache_compute : Option (List ℚ)
  cache_minimum : Option ℚ
  compute_runs : ℕ

/-- `Distances.__init__`: both caches empty, no computation yet. -/
def init (i1 i2 : Image) : State :=
  { img_1 := i1, img_2 := i2, cache_compute := none, cache_minimum := none
    compute_runs := 0 }

/-- One access of `_compute_distances()` through `lru_cache`: a hit returns
the cached array untouched; a miss runs the body (counted) and caches the
result only when no exception escapes. -/
def computeDistancesOp (s : State) : Option (List ℚ) × State :=
  match s.cache_compute with
  | some d => (some d, s)
  | none =>
    match compute_distances s.img_1 s.img_2 with
    | some d =>
      (some d, { s with cache_compute := some d, compute_runs := s.compute_runs + 1 })
    | none => (none, { s with compute_runs := s.compute_runs + 1 })

/-- One access of the `minimum` `cached_property`: a hit returns the cached
float; a miss evaluates `self._compute_distances().min()` and caches the
value only when the evaluation returns normally. -/
def minimumOp (s : State) : Option ℚ × State :=
  match s.cache_minimum with
  | some m => (some m, s)
  | none =>
    match computeDistancesOp s with
    | (some d, s') =>
      match listMinQ d with
      | some m => (some m, { s' with cache_minimum := some m })
      | none => (none, s')
    | (none, s') => (none, s')

/-- Mutate the underlying images of an instance, leaving both caches (and the
run counter) in place — no invalidation path exists. -/
def setImgs (s : State) (i1 i2 : Image) : State :=
  { s with img_1 := i1, img_2 := i2 }

end Distances

/-- Replace the voxel data of an image, keeping its geometry — the mask
mutation considered when relating two inputs. -/
def setMask (img : Image) (m : ℕ → ℕ → ℕ → ℚ) : Image :=
  { img with mask := m }

/-! ### Concrete inputs used to instantiate the theorems -/

/-- An all-ones (fully positive) voxel array. -/
def wMaskOne : ℕ → ℕ → ℕ → ℚ := fun _ _ _ => 1

/-- A single-voxel image whose only voxel sits at the world origin. -/
def wImgA : Image :=
  { dimZ := 1, dimY := 1, dimX := 1, mask := wMaskOne
    origin := ⟨0, 0, 0⟩, spacing := ⟨1, 1, 1⟩, direction := idMat }

/-- A single-voxel image whose only voxel sits at world point `(3,0,0)`. -/
def wImgB : Image :=
  { dimZ := 1, dimY := 1, dimX := 1, mask := wMaskOne
    origin := ⟨3, 0, 0⟩, spacing := ⟨1, 1, 1⟩, direction := idMat }

/-- A single-voxel image whose mask is entirely zero. -/
def wImgZero : Image :=
  { dimZ := 1, dimY := 1, dimX := 1, mask := fun _ _ _ => 0
    origin := ⟨0, 0, 0⟩, spacing := ⟨1, 1, 1⟩, direction := idMat }

/-- A 3x3x3 image with identity geometry whose only positive voxel sits at
array position `(z,y,x) = (0,2,1)`, i.e. at geometric index
`(x,y,z) = (1,2,0)`. -/
def wImgSingle : Image :=
  { dimZ := 3, dimY := 3, dimX := 3
    mask := fun z y x => if z = 0 ∧ y = 2 ∧ x = 1 then 1 else 0
    origin := ⟨0, 0, 0⟩, spacing := ⟨1, 1, 1⟩, direction := idMat }

/-- The state of a `Distances` instance on `wImgA`, `wImgB` after the first
(successful) access of `minimum`. -/
def wState : Distances.State :=
  { img_1 := wImgA, img_2 := wImgB, cache_compute := some [9]
    cache_minimum := some 9, compute_runs := 1 }

/-! ### Basic lemmas about the list minimum -/

theorem listMinQ_cons (a : ℚ) (l : List ℚ) :
    listMinQ (a :: l) = optMin2 (some a) (listMinQ l) := by
  cases h : listMinQ l <;> simp [listMinQ, optMin2, h]

theorem listMinQ_eq_none_iff (l : List ℚ) : listMinQ l = none ↔ l = [] := by
  cases l with
  | nil => simp [listMinQ]
  | cons a l => cases h : listMinQ l <;> simp [listMinQ, h]

theorem listMinQ_mem {l : List ℚ} {m : ℚ} (h : listMinQ l = some m) : m ∈ l := by
  induction l generalizing m with
  | nil => simp [listMinQ] at h
  | cons a l ih =>
    rw [listMinQ_cons] at h
    cases hl : listMinQ l with
    | none => rw [hl] at h; simp only [optMin2, Option.some.injEq] at h; simp [h]
    | some m' =>
      rw [hl] at h
      simp only [optMin2, Option.some.injEq] at h
      rw [List.mem_cons]
      rcases le_total a m' with hle | hle
      · left; rw [← h, min_eq_left hle]
      · right
        have hmm : m = m' := by rw [← h, min_eq_right hle]
        rw [hmm]; exact ih hl

theorem listMinQ_le {l : List ℚ} {m : ℚ} (h : listMinQ l = some m) :
    ∀ a ∈ l, m ≤ a := by
  induction l generalizing m with
  | nil => simp
  | cons a l ih =>
    rw [listMinQ_cons] at h
    intro b hb
    rw [List.mem_cons] at hb
    cases hl : listMinQ l with
    | none =>
      rw [hl] at h; simp only [optMin2, Option.some.injEq] at h
      rcases hb with hb | hb
      · rw [← h, hb]
      · rw [listMinQ_eq_none_iff] at hl; subst hl; simp at hb
    | some m' =>
      rw [hl] at h
      simp only [optMin2, Option.some.injEq] at h
      rcases hb with hb | hb
      · rw [← h, hb]; exact min_le_left _ _
      · calc m ≤ m' := by rw [← h]; exact min_le_right _ _
          _ ≤ b := ih hl b hb

theorem listMinQ_eq_some_iff (l : List ℚ) (m : ℚ) :
    listMinQ l = some m ↔ m ∈ l ∧ ∀ a ∈ l, m ≤ a := by
  constructor
  · intro h; exact ⟨listMinQ_mem h, listMinQ_le h⟩
  · rintro ⟨hmem, hlb⟩
    cases h : listMinQ l with
    | none =>
      rw [listMinQ_eq_none_iff] at h; subst h; simp at hmem
    | some m' =>
      have h1 : m' ≤ m := listMinQ_le h m hmem
      have h2 : m ≤ m' := hlb m' (listMinQ_mem h)
      rw [le_antisymm h1 h2]

theorem listMinQ_append (l₁ l₂ : List ℚ) :
    listMinQ (l₁ ++ l₂) = optMin2 (listMinQ l₁) (listMinQ l₂) := by
  induction l₁ with
  | nil => cases h : listMinQ l₂ <;> simp [listMinQ, optMin2, h]
  | cons a l ih =>
    rw [List.cons_append, listMinQ_cons, ih, listMinQ_cons]
    cases h1 : listMinQ l <;> cases h2 : listMinQ l₂ <;>
      simp [optMin2, min_assoc]

theorem listMinQ_isSome_of_ne_nil {l : List ℚ} (h : l ≠ []) :
    ∃ m, listMinQ l = some m := by
  cases hm : listMinQ l with
  | none => rw [listMinQ_eq_none_iff] at hm; exact absurd hm h
  | some m => exact ⟨m, rfl⟩

/-! ### Membership characterizations of the point-cloud pipeline -/

theorem mem_voxelIndicesZYX (img : Image) (z y x : ℕ) :
    (z, y, x) ∈ voxelIndicesZYX img ↔
      z < img.dimZ ∧ y < img.dimY ∧ x < img.dimX ∧ 0 < img.mask z y x := by
  simp only [voxelIndicesZYX, List.mem_flatMap, List.mem_map, List.mem_filter,
    List.mem_range]
  constructor
  · rintro ⟨z', hz', y', hy', x', ⟨⟨hx', hpos⟩, heq⟩⟩
    obtain ⟨hz, hy, hx⟩ : z' = z ∧ y' = y ∧ x' = x := by
      simpa [Prod.ext_iff] using heq
    subst hz; subst hy; subst hx
    exact ⟨hz', hy', hx', of_decide_eq_true hpos⟩
  · rintro ⟨hz, hy, hx, hpos⟩
    exact ⟨z, hz, y, hy, x, ⟨⟨hx, decide_eq_true hpos⟩, rfl⟩⟩

theorem voxelIndicesZYX_ne_nil_iff (img : Image) :
    voxelIndicesZYX img ≠ [] ↔ HasPositiveVoxel img := by
  constructor
  · intro h
    obtain ⟨t, ht⟩ := List.exists_mem_of_ne_nil _ h
    obtain ⟨z, y, x⟩ := t
    rw [mem_voxelIndicesZYX] at ht
    exact ⟨z, y, x, ht⟩
  · rintro ⟨z, y, x, hz, hy, hx, hpos⟩
    exact List.ne_nil_of_mem ((mem_voxelIndicesZYX img z y x).mpr ⟨hz, hy, hx, hpos⟩)

/-- The world point the implementation produces for array position `(z,y,x)`. -/
def worldOfZYX (img : Image) (t : ℕ × ℕ × ℕ) : Vec3 :=
  img.origin + matVec img.direction (hadamard (reverseIdx t) img.spacing)

theorem convert_eq_map (img : Image) :
    convert_to_world_coordinates img = (voxelIndicesZYX img).map (worldOfZYX img) := by
  simp [convert_to_world_coordinates, worldOfZYX, List.map_map, Function.comp_def]

theorem mem_convert (img : Image) (p : Vec3) :
    p ∈ convert_to_world_coordinates img ↔
      ∃ t ∈ voxelIndicesZYX img, p = worldOfZYX img t := by
  rw [convert_eq_map]
  simp only [List.mem_map]
  constructor
  · rintro ⟨t, ht, rfl⟩; exact ⟨t, ht, rfl⟩
  · rintro ⟨t, ht, rfl⟩; exact ⟨t, ht, rfl⟩

theorem convert_ne_nil_iff (img : Image) :
    convert_to_world_coordinates img ≠ [] ↔ HasPositiveVoxel img := by
  rw [convert_eq_map, ← voxelIndicesZYX_ne_nil_iff]
  simp

theorem mem_pairwiseSqDists (A B : List Vec3) (d : ℚ) :
    d ∈ pairwiseSqDists A B ↔ ∃ a ∈ A, ∃ b ∈ B, d = sqDist a b := by
  induction A with
  | nil => simp [pairwiseSqDists]
  | cons a A ih =>
    simp only [pairwiseSqDists, List.mem_append, List.mem_map, ih, List.mem_cons]
    constructor
    · rintro (⟨b, hb, rfl⟩ | ⟨a', ha', b, hb, rfl⟩)
      · exact ⟨a, Or.inl rfl, b, hb, rfl⟩
      · exact ⟨a', Or.inr ha', b, hb, rfl⟩
    · rintro ⟨a', ha' | ha', b, hb, rfl⟩
      · subst ha'; exact Or.inl ⟨b, hb, rfl⟩
      · exact Or.inr ⟨a', ha', b, hb, rfl⟩

theorem pairwiseSqDists_nil_right (A : List Vec3) : pairwiseSqDists A [] = [] := by
  induction A with
  | nil => rfl
  | cons a A ih => simp [pairwiseSqDists, ih]

theorem pairwiseSqDists_ne_nil {A B : List Vec3} (hA : A ≠ []) (hB : B ≠ []) :
    pairwiseSqDists A B ≠ [] := by
  obtain ⟨a, ha⟩ := List.exists_mem_of_ne_nil A hA
  obtain ⟨b, hb⟩ := List.exists_mem_of_ne_nil B hB
  exact List.ne_nil_of_mem ((mem_pairwiseSqDists A B _).mpr ⟨a, ha, b, hb, rfl⟩)

/-! ### The tree query against the brute-force pairwise minimum -/

theorem kdQuerySq_eq_none_iff (B : List Vec3) (p : Vec3) :
    kdQuerySq B p = none ↔ B = [] := by
  simp [kdQuerySq, listMinQ_eq_none_iff]

theorem mapOpt_eq_none_iff {α β : Type} (f : α → Option β) (l : List α) :
    mapOpt f l = none ↔ ∃ a ∈ l, f a = none := by
  induction l with
  | nil => simp [mapOpt]
  | cons a l ih =>
    cases hfa : f a with
    | none =>
      cases hml : mapOpt f l with
      | none =>
        simp only [mapOpt, hfa, hml]
        exact iff_of_true trivial ⟨a, List.mem_cons_self a l, hfa⟩
      | some bs =>
        simp only [mapOpt, hfa, hml]
        exact iff_of_true trivial ⟨a, List.mem_cons_self a l, hfa⟩
    | some b =>
      cases hml : mapOpt f l with
      | none =>
        simp only [mapOpt, hfa, hml]
        refine iff_of_true trivial ?_
        obtain ⟨a', ha', hfa'⟩ := ih.mp hml
        exact ⟨a', List.mem_cons_of_mem a ha', hfa'⟩
      | some bs =>
        simp only [mapOpt, hfa, hml]
        constructor
        · intro h; exact absurd h (by simp)
        · rintro ⟨a', ha', hfa'⟩
          rcases List.mem_cons.mp ha' with rfl | ha'
          · rw [hfa'] at hfa; exact Option.noConfusion hfa
          · have hn : mapOpt f l = none := ih.mpr ⟨a', ha', hfa'⟩
            rw [hn] at hml; exact Option.noConfusion hml

/-- The per-point tree minimum followed by the array minimum computes the
minimum of the full pairwise distance list. -/
theorem mapOpt_kdQuery_bind_min (A B : List Vec3) :
    (mapOpt (kdQuerySq B) A).bind listMinQ = listMinQ (pairwiseSqDists A B) := by
  induction A with
  | nil => simp [mapOpt, listMinQ, pairwiseSqDists]
  | cons a A ih =>
    cases hq : kdQuerySq B a with
    | none =>
      rw [kdQuerySq_eq_none_iff] at hq
      subst hq
      have h1 : mapOpt (kdQuerySq []) (a :: A) = none := by
        rw [mapOpt_eq_none_iff]
        exact ⟨a, List.mem_cons_self a A, rfl⟩
      have h2 : pairwiseSqDists (a :: A) [] = [] := by
        simp [pairwiseSqDists, pairwiseSqDists_nil_right]
      rw [h1, h2]
      rfl
    | some q =>
      cases hml : mapOpt (kdQuerySq B) A with
      | none =>
        rw [mapOpt_eq_none_iff] at hml
        obtain ⟨a', _, ha'⟩ := hml
        rw [kdQuerySq_eq_none_iff] at ha'
        subst ha'
        simp [kdQuerySq, listMinQ] at hq
      | some ds =>
        have hstep : mapOpt (kdQuerySq B) (a :: A) = some (q :: ds) := by
          simp [mapOpt, hq, hml]
        rw [hstep]
        rw [hml] at ih
        have ih' : listMinQ ds = listMinQ (pairwiseSqDists A B) := ih
        show listMinQ (q :: ds) = listMinQ (pairwiseSqDists (a :: A) B)
        rw [listMinQ_cons, ih']
        show optMin2 (some q) _ = listMinQ (B.map (sqDist a) ++ pairwiseSqDists A B)
        rw [listMinQ_append, ← hq]
        rfl

/-! ### The implementation transform against the spec formula -/

theorem worldOfZYX_eq_spec (img : Image) (t : ℕ × ℕ × ℕ) :
    worldOfZYX img t =
      specWorldPoint img.origin img.direction img.spacing t.2.2 t.2.1 t.1 := by
  simp only [worldOfZYX, specWorldPoint, reverseIdx, hadamard, matVec, Vec3.add_def,
    Vec3.mk.injEq]
  refine ⟨by ring, by ring, by ring⟩

theorem length_convert (img : Image) :
    (convert_to_world_coordinates img).length = countPositiveVoxels img := by
  rw [convert_eq_map, List.length_map, voxelIndicesZYX, countPositiveVoxels]
  simp only [List.length_flatMap, List.length_map, List.map_map, Function.comp_def,
    ← List.countP_eq_length_filter]

/-! ### Range lemmas for single-voxel and all-zero masks -/

theorem flatMap_range_single {α : Type} (n k : ℕ) (f : ℕ → List α)
    (hk : k < n) (h : ∀ m, m ≠ k → f m = []) :
    (List.range n).flatMap f = f k := by
  induction n with
  | zero => exact absurd hk (Nat.not_lt_zero k)
  | succ n ih =>
    rw [List.range_succ, List.flatMap_append]
    rcases Nat.lt_succ_iff_lt_or_eq.mp hk with h1 | h1
    · rw [ih h1]
      have hn : [n].flatMap f = [] := by
        simp [h n (by omega)]
      rw [hn, List.append_nil]
    · subst h1
      have hz : (List.range k).flatMap f = [] := by
        rw [List.flatMap_eq_nil_iff]
        intro a ha
        exact h a (by rw [List.mem_range] at ha; omega)
      rw [hz]
      simp

theorem filter_range_single (n i : ℕ) (p : ℕ → Bool) (hi : i < n)
    (hpi : p i = true) (h : ∀ x, x ≠ i → p x = false) :
    (List.range n).filter p = [i] := by
  induction n with
  | zero => exact absurd hi (Nat.not_lt_zero i)
  | succ n ih =>
    rw [List.range_succ, List.filter_append]
    rcases Nat.lt_succ_iff_lt_or_eq.mp hi with h1 | h1
    · rw [ih h1]
      have hn : [n].filter p = [] := by
        simp [h n (by omega)]
      rw [hn, List.append_nil]
    · subst h1
      have hz : (List.range i).filter p = [] := by
        rw [List.filter_eq_nil_iff]
        intro a ha
        rw [List.mem_range] at ha
        simp [h a (by omega)]
      rw [hz]
      simp [hpi]

theorem voxelIndicesZYX_eq_nil_of_nonpos (img : Image)
    (h : ∀ z y x, z < img.dimZ → y < img.dimY → x < img.dimX →
      img.mask z y x ≤ 0) :
    voxelIndicesZYX img = [] := by
  rw [voxelIndicesZYX, List.flatMap_eq_nil_iff]
  intro z hz
  rw [List.flatMap_eq_nil_iff]
  intro y hy
  rw [List.mem_range] at hz hy
  have hf : (List.range img.dimX).filter
      (fun x => decide (0 < img.mask z y x)) = [] := by
    rw [List.filter_eq_nil_iff]
    intro x hx
    rw [List.mem_range] at hx
    simp only [decide_eq_true_eq]
    exact not_lt.mpr (h z y x hz hy hx)
  rw [hf]
  rfl

/-! ### Squared-distance facts and the image-level brute-force reduction -/

theorem sqDist_nonneg (a b : Vec3) : 0 ≤ sqDist a b := by
  unfold sqDist
  positivity

theorem sqDist_comm (a b : Vec3) : sqDist a b = sqDist b a := by
  unfold sqDist
  ring

theorem sqDist_self (a : Vec3) : sqDist a a = 0 := by
  simp [sqDist]

theorem minimumSq_eq_brute (img_1 img_2 : Image) :
    Distances.minimumSq img_1 img_2 =
      listMinQ (pairwiseSqDists (convert_to_world_coordinates img_1)
        (convert_to_world_coordinates img_2)) :=
  mapOpt_kdQuery_bind_min _ _

theorem minimumSq_eq_none_of_empty {img_1 img_2 : Image}
    (h : convert_to_world_coordinates img_1 = [] ∨
      convert_to_world_coordinates img_2 = []) :
    Distances.minimumSq img_1 img_2 = none := by
  rw [minimumSq_eq_brute]
  rcases h with h | h <;> rw [h]
  · rw [show pairwiseSqDists [] (convert_to_world_coordinates img_2) = []
      from rfl]
    rfl
  · rw [pairwiseSqDists_nil_right]
    rfl

/-! ### State-machine lemmas for the caches -/

theorem computeDistancesOp_fst (s : Distances.State)
    (hc : s.cache_compute = none) :
    (Distances.computeDistancesOp s).1 =
      Distances.compute_distances s.img_1 s.img_2 := by
  unfold Distances.computeDistancesOp
  rw [hc]
  cases Distances.compute_distances s.img_1 s.img_2 <;> rfl

theorem minimumOp_fst_fresh (i1 i2 : Image) :
    (Distances.minimumOp (Distances.init i1 i2)).1 =
      Distances.minimumSq i1 i2 := by
  unfold Distances.minimumOp Distances.computeDistancesOp Distances.init
    Distances.minimumSq
  cases h : Distances.compute_distances i1 i2 with
  | none => simp [h]
  | some d =>
    simp only [h]
    cases hm : listMinQ d <;> simp [hm]

theorem minimumOp_sets_cache {s s' : Distances.State} {m : ℚ}
    (h : Distances.minimumOp s = (some m, s')) :
    s'.cache_minimum = some m := by
  unfold Distances.minimumOp at h
  split at h
  · rename_i m0 hc
    rw [Prod.mk.injEq] at h
    rw [← h.2, hc]
    exact congrArg some (Option.some.inj h.1)
  · rename_i hc
    split at h
    · rename_i d s1 heq
      split at h
      · rename_i m0 hm
        rw [Prod.mk.injEq] at h
        rw [← h.2]
        exact congrArg some (Option.some.inj h.1)
      · rw [Prod.mk.injEq] at h
        exact absurd h.1 (by simp)
    · rename_i s1 heq
      rw [Prod.mk.injEq] at h
      exact absurd h.1 (by simp)

theorem minimumOp_of_cached (s : Distances.State) (m : ℚ)
    (hc : s.cache_minimum = some m) :
    Distances.minimumOp s = (some m, s) := by
  unfold Distances.minimumOp
  rw [hc]

theorem setImgs_cache_minimum (s : Distances.State) (i1 i2 : Image) :
    (Distances.setImgs s i1 i2).cache_minimum = s.cache_minimum := rfl

theorem setImgs_compute_runs (s : Distances.State) (i1 i2 : Image) :
    (Distances.setImgs s i1 i2).compute_runs = s.compute_runs := rfl

/-! ### Evaluations of the concrete inputs -/

theorem hasPos_wImgA : HasPositiveVoxel wImgA :=
  ⟨0, 0, 0, by norm_num [wImgA, wMaskOne]⟩

theorem hasPos_wImgB : HasPositiveVoxel wImgB :=
  ⟨0, 0, 0, by norm_num [wImgB, wMaskOne]⟩

theorem notPos_wImgZero : ¬ HasPositiveVoxel wImgZero := by
  rintro ⟨z, y, x, -, -, -, hpos⟩
  norm_num [wImgZero] at hpos

theorem convert_wImgA : convert_to_world_coordinates wImgA = [⟨0, 0, 0⟩] := by
  have h : voxelIndicesZYX wImgA = [(0, 0, 0)] := by
    simp [voxelIndicesZYX, wImgA, wMaskOne, List.range_succ]
  rw [convert_eq_map, h]
  simp only [List.map_cons, List.map_nil]
  norm_num [worldOfZYX, wImgA, reverseIdx, hadamard, matVec, idMat, Vec3.add_def,
    Vec3.mk.injEq]

theorem convert_wImgB : convert_to_world_coordinates wImgB = [⟨3, 0, 0⟩] := by
  have h : voxelIndicesZYX wImgB = [(0, 0, 0)] := by
    simp [voxelIndicesZYX, wImgB, wMaskOne, List.range_succ]
  rw [convert_eq_map, h]
  simp only [List.map_cons, List.map_nil]
  norm_num [worldOfZYX, wImgB, reverseIdx, hadamard, matVec, idMat, Vec3.add_def,
    Vec3.mk.injEq]

theorem compute_wAB : Distances.compute_distances wImgA wImgB = some [9] := by
  have h9 : sqDist ⟨0, 0, 0⟩ ⟨3, 0, 0⟩ = 9 := by norm_num [sqDist]
  show mapOpt (kdQuerySq (convert_to_world_coordinates wImgB))
      (convert_to_world_coordinates wImgA) = some [9]
  rw [convert_wImgA, convert_wImgB]
  simp [mapOpt, kdQuerySq, listMinQ, h9]

theorem minimumOp_wAB :
    Distances.minimumOp (Distances.init wImgA wImgB) = (some 9, wState) := by
  simp only [Distances.minimumOp, Distances.computeDistancesOp, Distances.init,
    compute_wAB, listMinQ, wState]

/-! ### Claim theorems -/

/-- C1: for every pair of images whose masks each contain at least one
positive voxel, `minimum` equals the true geometric minimum pairwise
Euclidean (L2) distance between the two point clouds, i.e. the brute-force
`O(n*m)` minimum over all pairs `(a, b)` of `‖a - b‖`. -/
theorem minimum_eq_bruteforce_pairwise (img_1 img_2 : Image)
    (h1 : HasPositiveVoxel img_1) (h2 : HasPositiveVoxel img_2) :
    ∃ m : ℚ,
      Distances.minimumSq img_1 img_2 = some m ∧
      listMinQ (pairwiseSqDists (convert_to_world_coordinates img_1)
        (convert_to_world_coordinates img_2)) = some m ∧
      IsLeast {d : ℝ | ∃ a ∈ convert_to_world_coordinates img_1,
        ∃ b ∈ convert_to_world_coordinates img_2,
        d = Real.sqrt ((sqDist a b : ℚ) : ℝ)} (Real.sqrt ((m : ℚ) : ℝ)) := by
  have hA := (convert_ne_nil_iff img_1).mpr h1
  have hB := (convert_ne_nil_iff img_2).mpr h2
  obtain ⟨m, hm⟩ := listMinQ_isSome_of_ne_nil (pairwiseSqDists_ne_nil hA hB)
  refine ⟨m, (minimumSq_eq_brute ..).trans hm, hm, ?_, ?_⟩
  · obtain ⟨a, ha, b, hb, hab⟩ := (mem_pairwiseSqDists ..).mp (listMinQ_mem hm)
    exact ⟨a, ha, b, hb, by rw [hab]⟩
  · rintro d ⟨a, ha, b, hb, rfl⟩
    have hle : m ≤ sqDist a b :=
      listMinQ_le hm _ ((mem_pairwiseSqDists ..).mpr ⟨a, ha, b, hb, rfl⟩)
    exact Real.sqrt_le_sqrt (by exact_mod_cast hle)

theorem minimum_eq_bruteforce_pairwise_witness :
    HasPositiveVoxel wImgA ∧ HasPositiveVoxel wImgB ∧
    ∃ m : ℚ,
      Distances.minimumSq wImgA wImgB = some m ∧
      listMinQ (pairwiseSqDists (convert_to_world_coordinates wImgA)
        (convert_to_world_coordinates wImgB)) = some m ∧
      IsLeast {d : ℝ | ∃ a ∈ convert_to_world_coordinates wImgA,
        ∃ b ∈ convert_to_world_coordinates wImgB,
        d = Real.sqrt ((sqDist a b : ℚ) : ℝ)} (Real.sqrt ((m : ℚ) : ℝ)) :=
  ⟨hasPos_wImgA, hasPos_wImgB,
    minimum_eq_bruteforce_pairwise wImgA wImgB hasPos_wImgA hasPos_wImgB⟩

/-- C5: for every pair of images each yielding a non-empty point cloud, the
result is symmetric — swapping the two images yields the same minimum. -/
theorem minimum_symmetric (img_1 img_2 : Image)
    (h1 : HasPositiveVoxel img_1) (h2 : HasPositiveVoxel img_2) :
    Distances.minimumSq img_1 img_2 = Distances.minimumSq img_2 img_1 := by
  have hA := (convert_ne_nil_iff img_1).mpr h1
  have hB := (convert_ne_nil_iff img_2).mpr h2
  rw [minimumSq_eq_brute, minimumSq_eq_brute]
  obtain ⟨m, hm⟩ := listMinQ_isSome_of_ne_nil (pairwiseSqDists_ne_nil hA hB)
  rw [hm]
  symm
  rw [listMinQ_eq_some_iff]
  constructor
  · obtain ⟨a, ha, b, hb, hab⟩ := (mem_pairwiseSqDists ..).mp (listMinQ_mem hm)
    exact (mem_pairwiseSqDists ..).mpr ⟨b, hb, a, ha, by rw [hab, sqDist_comm]⟩
  · intro d hd
    obtain ⟨b, hb, a, ha, rfl⟩ := (mem_pairwiseSqDists ..).mp hd
    exact listMinQ_le hm _
      ((mem_pairwiseSqDists ..).mpr ⟨a, ha, b, hb, sqDist_comm b a⟩)

theorem minimum_symmetric_witness :
    HasPositiveVoxel wImgA ∧ HasPositiveVoxel wImgB ∧
    Distances.minimumSq wImgA wImgB = Distances.minimumSq wImgB wImgA :=
  ⟨hasPos_wImgA, hasPos_wImgB,
    minimum_symmetric wImgA wImgB hasPos_wImgA hasPos_wImgB⟩

/-- C8: for two identical non-empty masks (the same image used as both
inputs), `minimum` is exactly `0.0`, since each point of cloud A is present
in cloud B at distance zero. -/
theorem identical_masks_minimum_zero (img : Image) (h : HasPositiveVoxel img) :
    Distances.minimumSq img img = some 0 ∧
    (Distances.minimumSq img img).map (fun q => Real.sqrt ((q : ℚ) : ℝ)) =
      some (0 : ℝ) := by
  have hA := (convert_ne_nil_iff img).mpr h
  have h0 : Distances.minimumSq img img = some 0 := by
    rw [minimumSq_eq_brute, listMinQ_eq_some_iff]
    obtain ⟨a, ha⟩ := List.exists_mem_of_ne_nil _ hA
    constructor
    · exact (mem_pairwiseSqDists ..).mpr ⟨a, ha, a, ha, (sqDist_self a).symm⟩
    · intro d hd
      obtain ⟨u, -, v, -, rfl⟩ := (mem_pairwiseSqDists ..).mp hd
      exact sqDist_nonneg u v
  refine ⟨h0, ?_⟩
  rw [h0]
  simp

theorem identical_masks_minimum_zero_witness :
    HasPositiveVoxel wImgA ∧
    Distances.minimumSq wImgA wImgA = some 0 ∧
    (Distances.minimumSq wImgA wImgA).map (fun q => Real.sqrt ((q : ℚ) : ℝ)) =
      some (0 : ℝ) :=
  ⟨hasPos_wImgA,
    (identical_masks_minimum_zero wImgA hasPos_wImgA).1,
    (identical_masks_minimum_zero wImgA hasPos_wImgA).2⟩

/-- C9: for every pair of images each yielding a non-empty point cloud, the
value of `minimum` is non-negative, every per-point nearest-neighbour
distance being a Euclidean norm. -/
theorem minimum_nonneg (img_1 img_2 : Image)
    (h1 : HasPositiveVoxel img_1) (h2 : HasPositiveVoxel img_2) :
    ∃ m : ℚ, Distances.minimumSq img_1 img_2 = some m ∧ 0 ≤ m ∧
      0 ≤ Real.sqrt ((m : ℚ) : ℝ) := by
  have hA := (convert_ne_nil_iff img_1).mpr h1
  have hB := (convert_ne_nil_iff img_2).mpr h2
  obtain ⟨m, hm⟩ := listMinQ_isSome_of_ne_nil (pairwiseSqDists_ne_nil hA hB)
  refine ⟨m, (minimumSq_eq_brute ..).trans hm, ?_, Real.sqrt_nonneg _⟩
  obtain ⟨a, -, b, -, rfl⟩ := (mem_pairwiseSqDists ..).mp (listMinQ_mem hm)
  exact sqDist_nonneg a b

theorem minimum_nonneg_witness :
    HasPositiveVoxel wImgA ∧ HasPositiveVoxel wImgB ∧
    ∃ m : ℚ, Distances.minimumSq wImgA wImgB = some m ∧ 0 ≤ m ∧
      0 ≤ Real.sqrt ((m : ℚ) : ℝ) :=
  ⟨hasPos_wImgA, hasPos_wImgB,
    minimum_nonneg wImgA wImgB hasPos_wImgA hasPos_wImgB⟩

/-- C3: the distance array and the minimum are computed at most once per
instance; every later access of `minimum` returns the identical previously
computed value without recomputation, and since the cache is never
invalidated, mutating the underlying images after the first computation does
not change the value returned by later accesses. -/
theorem minimum_memoized (s s' : Distances.State) (m : ℚ)
    (h : Distances.minimumOp s = (some m, s')) :
    ∀ i1 i2 : Image,
      Distances.minimumOp (Distances.setImgs s' i1 i2) =
        (some m, Distances.setImgs s' i1 i2) ∧
      (Distances.minimumOp (Distances.setImgs s' i1 i2)).2.compute_runs =
        s'.compute_runs := by
  intro i1 i2
  have hc : (Distances.setImgs s' i1 i2).cache_minimum = some m :=
    (setImgs_cache_minimum ..).trans (minimumOp_sets_cache h)
  have heq := minimumOp_of_cached _ m hc
  exact ⟨heq, by rw [heq, setImgs_compute_runs]⟩

theorem minimum_memoized_witness :
    Distances.minimumOp (Distances.init wImgA wImgB) = (some 9, wState) ∧
    Distances.minimumOp (Distances.setImgs wState wImgZero wImgZero) =
      (some 9, Distances.setImgs wState wImgZero wImgZero) ∧
    (Distances.minimumOp (Distances.setImgs wState wImgZero wImgZero)).2.compute_runs =
      wState.compute_runs :=
  ⟨minimumOp_wAB,
    minimum_memoized (Distances.init wImgA wImgB) wState 9 minimumOp_wAB
      wImgZero wImgZero⟩

/-- C4: if either point cloud is empty (that image's mask contains no
positive voxel), accessing `minimum` does not return a normal value — the
computation yields no result (the nearest-neighbour query on the empty
reference set is undefined, and the reduction of an empty distance array
raises), with no special-casing of the empty input on either side. -/
theorem minimum_fails_on_empty_cloud (img_1 img_2 : Image)
    (h : ¬ HasPositiveVoxel img_1 ∨ ¬ HasPositiveVoxel img_2) :
    Distances.minimumSq img_1 img_2 = none ∧
    (Distances.minimumOp (Distances.init img_1 img_2)).1 = none := by
  have hconv : convert_to_world_coordinates img_1 = [] ∨
      convert_to_world_coordinates img_2 = [] := by
    rcases h with h | h
    · left
      by_contra hne
      exact h ((convert_ne_nil_iff img_1).mp hne)
    · right
      by_contra hne
      exact h ((convert_ne_nil_iff img_2).mp hne)
  have hmin := minimumSq_eq_none_of_empty hconv
  exact ⟨hmin, by rw [minimumOp_fst_fresh, hmin]⟩

theorem minimum_fails_on_empty_cloud_witness :
    (¬ HasPositiveVoxel wImgZero ∨ ¬ HasPositiveVoxel wImgA) ∧
    Distances.minimumSq wImgZero wImgA = none ∧
    (Distances.minimumOp (Distances.init wImgZero wImgA)).1 = none :=
  ⟨Or.inl notPos_wImgZero,
    minimum_fails_on_empty_cloud wImgZero wImgA (Or.inl notPos_wImgZero)⟩

/-- C2: `convert_to_world_coordinates` returns one World Point per positive
voxel, in the array-traversal order of the mask (so the output length equals
the count of positive voxels), each point equal to
`origin + direction * (spacing elementwise-times index)` with the `(z,y,x)`
storage index reversed to `(x,y,z)` order. -/
theorem convert_matches_spec (img : Image) :
    convert_to_world_coordinates img =
      (voxelIndicesZYX img).map (fun t =>
        specWorldPoint img.origin img.direction img.spacing t.2.2 t.2.1 t.1) ∧
    (convert_to_world_coordinates img).length = countPositiveVoxels img := by
  refine ⟨?_, length_convert img⟩
  have hf : worldOfZYX img = fun t =>
      specWorldPoint img.origin img.direction img.spacing t.2.2 t.2.1 t.1 :=
    funext (worldOfZYX_eq_spec img)
  rw [convert_eq_map, hf]

/-- C6: for a mask image with exactly one positive voxel at geometric index
`(i,j,k)` (array position `(k,j,i)`), identity spacing, zero origin, and
identity direction, the transform yields exactly one World Point `(i,j,k)`. -/
theorem single_voxel_transform (img : Image) (i j k : ℕ)
    (hi : i < img.dimX) (hj : j < img.dimY) (hk : k < img.dimZ)
    (ho : img.origin = ⟨0, 0, 0⟩) (hs : img.spacing = ⟨1, 1, 1⟩)
    (hd : img.direction = idMat)
    (hm : ∀ z y x, 0 < img.mask z y x ↔ z = k ∧ y = j ∧ x = i) :
    convert_to_world_coordinates img = [⟨(i : ℚ), (j : ℚ), (k : ℚ)⟩] := by
  have hxlevel : ((List.range img.dimX).filter fun x =>
      decide (0 < img.mask k j x)) = [i] := by
    apply filter_range_single _ _ _ hi
    · rw [decide_eq_true_eq]
      exact (hm k j i).mpr ⟨rfl, rfl, rfl⟩
    · intro x hx
      rw [decide_eq_false_iff_not]
      intro hpos
      exact hx ((hm k j x).mp hpos).2.2
  have hylevel : ∀ y, y ≠ j →
      (((List.range img.dimX).filter fun x =>
        decide (0 < img.mask k y x)).map fun x => (k, y, x)) = [] := by
    intro y hy
    have hfil : ((List.range img.dimX).filter fun x =>
        decide (0 < img.mask k y x)) = [] := by
      rw [List.filter_eq_nil_iff]
      intro x _
      simp only [decide_eq_true_eq]
      intro hpos
      exact hy ((hm k y x).mp hpos).2.1
    rw [hfil]
    rfl
  have hzlevel : ∀ z, z ≠ k →
      ((List.range img.dimY).flatMap fun y =>
        ((List.range img.dimX).filter fun x =>
          decide (0 < img.mask z y x)).map fun x => (z, y, x)) = [] := by
    intro z hz
    rw [List.flatMap_eq_nil_iff]
    intro y _
    have hfil : ((List.range img.dimX).filter fun x =>
        decide (0 < img.mask z y x)) = [] := by
      rw [List.filter_eq_nil_iff]
      intro x _
      simp only [decide_eq_true_eq]
      intro hpos
      exact hz ((hm z y x).mp hpos).1
    rw [hfil]
    rfl
  have hvox : voxelIndicesZYX img = [(k, j, i)] := by
    rw [voxelIndicesZYX]
    rw [flatMap_range_single img.dimZ k _ hk hzlevel]
    rw [flatMap_range_single img.dimY j _ hj hylevel]
    rw [hxlevel]
    rfl
  have hw : worldOfZYX img (k, j, i) = ⟨(i : ℚ), (j : ℚ), (k : ℚ)⟩ := by
    rw [worldOfZYX, ho, hs, hd]
    show (⟨0, 0, 0⟩ : Vec3) +
      matVec idMat (hadamard ⟨(i : ℚ), (j : ℚ), (k : ℚ)⟩ ⟨1, 1, 1⟩) = _
    simp only [idMat, hadamard, matVec, Vec3.add_def, Vec3.mk.injEq]
    refine ⟨by ring, by ring, by ring⟩
  rw [convert_eq_map, hvox, List.map_cons, List.map_nil, hw]

theorem single_voxel_transform_witness :
    1 < wImgSingle.dimX ∧ 2 < wImgSingle.dimY ∧ 0 < wImgSingle.dimZ ∧
    wImgSingle.origin = ⟨0, 0, 0⟩ ∧ wImgSingle.spacing = ⟨1, 1, 1⟩ ∧
    wImgSingle.direction = idMat ∧
    (∀ z y x, 0 < wImgSingle.mask z y x ↔ z = 0 ∧ y = 2 ∧ x = 1) ∧
    convert_to_world_coordinates wImgSingle =
      [⟨((1 : ℕ) : ℚ), ((2 : ℕ) : ℚ), ((0 : ℕ) : ℚ)⟩] := by
  have hmask : ∀ z y x, 0 < wImgSingle.mask z y x ↔ z = 0 ∧ y = 2 ∧ x = 1 := by
    intro z y x
    by_cases h : z = 0 ∧ y = 2 ∧ x = 1
    · norm_num [wImgSingle, h]
    · norm_num [wImgSingle, h]
  exact ⟨by decide, by decide, by decide, rfl, rfl, rfl, hmask,
    single_voxel_transform wImgSingle 1 2 0 (by decide) (by decide) (by decide)
      rfl rfl rfl hmask⟩

/-- C7: for every image whose mask is all zero (no voxel value exceeds
zero), `convert_to_world_coordinates` yields an empty Point Cloud. -/
theorem all_zero_mask_empty_cloud (img : Image)
    (h : ∀ z y x, z < img.dimZ → y < img.dimY → x < img.dimX →
      img.mask z y x ≤ 0) :
    convert_to_world_coordinates img = [] := by
  rw [convert_eq_map, voxelIndicesZYX_eq_nil_of_nonpos img h]
  rfl

theorem all_zero_mask_empty_cloud_witness :
    (∀ z y x, z < wImgZero.dimZ → y < wImgZero.dimY → x < wImgZero.dimX →
      wImgZero.mask z y x ≤ 0) ∧
    convert_to_world_coordinates wImgZero = [] :=
  ⟨fun _ _ _ _ _ _ => le_of_eq rfl,
    all_zero_mask_empty_cloud wImgZero (fun _ _ _ _ _ _ => le_of_eq rfl)⟩

theorem convert_subset_of_mask_growth (img : Image) (m : ℕ → ℕ → ℕ → ℚ)
    (hg : ∀ z y x, 0 < img.mask z y x → 0 < m z y x) :
    ∀ p ∈ convert_to_world_coordinates img,
      p ∈ convert_to_world_coordinates (setMask img m) := by
  intro p hp
  rw [mem_convert] at hp ⊢
  obtain ⟨t, ht, rfl⟩ := hp
  obtain ⟨z, y, x⟩ := t
  rw [mem_voxelIndicesZYX] at ht
  refine ⟨(z, y, x), ?_, rfl⟩
  rw [mem_voxelIndicesZYX]
  exact ⟨ht.1, ht.2.1, ht.2.2.1, hg z y x ht.2.2.2⟩

/-- C10: the minimum is monotonically non-increasing under mask growth —
turning additional voxels positive in either image (keeping all previously
positive voxels positive) never increases the value of `minimum`. -/
theorem minimum_monotone_under_mask_growth (img_1 img_2 : Image)
    (m1 m2 : ℕ → ℕ → ℕ → ℚ)
    (hg1 : ∀ z y x, 0 < img_1.mask z y x → 0 < m1 z y x)
    (hg2 : ∀ z y x, 0 < img_2.mask z y x → 0 < m2 z y x)
    (h1 : HasPositiveVoxel img_1) (h2 : HasPositiveVoxel img_2) :
    ∃ mOld mNew : ℚ,
      Distances.minimumSq img_1 img_2 = some mOld ∧
      Distances.minimumSq (setMask img_1 m1) (setMask img_2 m2) = some mNew ∧
      mNew ≤ mOld ∧
      Real.sqrt ((mNew : ℚ) : ℝ) ≤ Real.sqrt ((mOld : ℚ) : ℝ) := by
  have hA := (convert_ne_nil_iff img_1).mpr h1
  have hB := (convert_ne_nil_iff img_2).mpr h2
  obtain ⟨mOld, hmOld⟩ := listMinQ_isSome_of_ne_nil (pairwiseSqDists_ne_nil hA hB)
  have hA2 : convert_to_world_coordinates (setMask img_1 m1) ≠ [] := by
    obtain ⟨a, ha⟩ := List.exists_mem_of_ne_nil _ hA
    exact List.ne_nil_of_mem (convert_subset_of_mask_growth img_1 m1 hg1 a ha)
  have hB2 : convert_to_world_coordinates (setMask img_2 m2) ≠ [] := by
    obtain ⟨b, hb⟩ := List.exists_mem_of_ne_nil _ hB
    exact List.ne_nil_of_mem (convert_subset_of_mask_growth img_2 m2 hg2 b hb)
  obtain ⟨mNew, hmNew⟩ := listMinQ_isSome_of_ne_nil (pairwiseSqDists_ne_nil hA2 hB2)
  have hle : mNew ≤ mOld := by
    obtain ⟨a, ha, b, hb, rfl⟩ := (mem_pairwiseSqDists ..).mp (listMinQ_mem hmOld)
    exact listMinQ_le hmNew _ ((mem_pairwiseSqDists ..).mpr
      ⟨a, convert_subset_of_mask_growth img_1 m1 hg1 a ha,
        b, convert_subset_of_mask_growth img_2 m2 hg2 b hb, rfl⟩)
  exact ⟨mOld, mNew, (minimumSq_eq_brute ..).trans hmOld,
    (minimumSq_eq_brute ..).trans hmNew, hle,
    Real.sqrt_le_sqrt (by exact_mod_cast hle)⟩

theorem minimum_monotone_under_mask_growth_witness :
    (∀ z y x, 0 < wImgA.mask z y x → 0 < wMaskOne z y x) ∧
    (∀ z y x, 0 < wImgB.mask z y x → 0 < wMaskOne z y x) ∧
    HasPositiveVoxel wImgA ∧ HasPositiveVoxel wImgB ∧
    ∃ mOld mNew : ℚ,
      Distances.minimumSq wImgA wImgB = some mOld ∧
      Distances.minimumSq (setMask wImgA wMaskOne) (setMask wImgB wMaskOne) =
        some mNew ∧
      mNew ≤ mOld ∧
      Real.sqrt ((mNew : ℚ) : ℝ) ≤ Real.sqrt ((mOld : ℚ) : ℝ) :=
  ⟨fun _ _ _ _ => by norm_num [wMaskOne], fun _ _ _ _ => by norm_num [wMaskOne],
    hasPos_wImgA, hasPos_wImgB,
    minimum_monotone_under_mask_growth wImgA wImgB wMaskOne wMaskOne
      (fun _ _ _ _ => by norm_num [wMaskOne]) (fun _ _ _ _ => by norm_num [wMaskOne])
      hasPos_wImgA hasPos_wImgB⟩
